import Mathlib

/-
Verification of the s3-client request-signing engine (AWS SigV4).

This file is a shallow embedding, in Lean 4, of the code in
`src/credentials.rs` and `src/client.rs` of the `s3-client` repository:

* bytes are `Nat` (each in `0..256`), byte strings are `List Nat`;
* Rust `String`/`&str` values are Lean `String`s; `str` comparison in Rust
  is byte-wise on UTF-8, which coincides with code-point lexicographic
  comparison on `String.data`, embedded here as `charListLe`;
* the external cryptographic primitives (ring's HMAC-SHA256 and SHA-256)
  are not part of this repository; the embedding is parametric in a
  `CryptoPrimitives` record holding those two byte-level functions, and
  every theorem holds for all instantiations;
* `hyper::HeaderMap` is embedded as an insertion-ordered list of
  (name, value) pairs whose names are lower-case (hyper's `HeaderName`
  invariant); `HeaderMap::insert` removes all previous values of the name;
* fallible Rust operations (`unwrap` sites) are embedded twice: a total
  function for the success path and an `Option`-returning variant
  (`RequestSigner.signE`) in which each `unwrap` is an explicit check;
  `signE` acts on requests with byte-valued header maps (`SRequestB`,
  matching what `hyper::HeaderValue` actually stores), so that the
  `from_utf8(value.as_bytes()).unwrap()` inside `canonicalize_headers`
  is a genuine failure branch reachable by non-UTF-8 header bytes.
-/

/-! ## Byte-string and formatting primitives -/

/-- Code-point (= UTF-8 byte-wise) lexicographic `≤` on character lists,
the order used by Rust's `str::cmp`. -/
def charListLe : List Char → List Char → Bool
  | [], _ => true
  | _ :: _, [] => false
  | a :: as, b :: bs =>
    if a.toNat < b.toNat then true
    else if b.toNat < a.toNat then false
    else charListLe as bs

/-- Rust `str` comparison (`a <= b`). -/
def strLe (a b : String) : Bool := charListLe a.data b.data

/-- Strict version of `strLe`. -/
def strLt (a b : String) : Bool := strLe a b && !(a == b)

/-- Decimal digits of a natural number, most significant first
(fuel-driven so that it reduces in the kernel). -/
def natDigitsAux : Nat → Nat → List Nat
  | 0, _ => []
  | fuel+1, n => if n < 10 then [n] else natDigitsAux fuel (n / 10) ++ [n % 10]

/-- Decimal digits of `n`, most significant first. -/
def natDigits (n : Nat) : List Nat := natDigitsAux (n + 1) n

/-- Decimal rendering of a natural number, as Rust's `Display` for
unsigned integers produces it. -/
def natToStr (n : Nat) : String :=
  String.mk ((natDigits n).map fun d => Char.ofNat (48 + d))

/-- Zero-pad the decimal rendering of `n` to at least `w` digits
(chrono's `%Y`, `%m`, ... formatting). -/
def padNat (w n : Nat) : String :=
  String.mk (List.replicate (w - (natDigits n).length) '0') ++ natToStr n

/-- UTF-8 encoding of one scalar value. -/
def charUtf8 (c : Char) : List Nat :=
  let n := c.toNat
  if n < 0x80 then [n]
  else if n < 0x800 then [0xC0 + n / 64, 0x80 + n % 64]
  else if n < 0x10000 then [0xE0 + n / 4096, 0x80 + (n / 64) % 64, 0x80 + n % 64]
  else [0xF0 + n / 0x40000, 0x80 + (n / 4096) % 64, 0x80 + (n / 64) % 64, 0x80 + n % 64]

/-- The UTF-8 bytes of a string (Rust's `str::as_bytes`). -/
def strBytes (s : String) : List Nat := s.data.flatMap charUtf8

/-- Lower-case an ASCII letter, as hyper's `HeaderName` parsing does. -/
def lowerChar (c : Char) : Char :=
  if 65 ≤ c.toNat ∧ c.toNat ≤ 90 then Char.ofNat (c.toNat + 32) else c

/-- ASCII lower-casing of a string. -/
def lowerAscii (s : String) : String := String.mk (s.data.map lowerChar)

/-- Lower-case hex digit for a value `< 16` (Rust `{byte:02x}`). -/
def hexDigitLower (n : Nat) : Char :=
  if n < 10 then Char.ofNat (48 + n) else Char.ofNat (87 + n)

/-- Upper-case hex digit for a value `< 16` (the `percent_encoding` crate
escapes with upper-case hex). -/
def hexDigitUpper (n : Nat) : Char :=
  if n < 10 then Char.ofNat (48 + n) else Char.ofNat (55 + n)

/-- `hex_encode` from `credentials.rs`: a byte string as a lower-case hex
string, two digits per byte. -/
def hex_encode (bytes : List Nat) : String :=
  String.join (bytes.map fun b => String.mk [hexDigitLower (b / 16 % 16), hexDigitLower (b % 16)])

/-- Left fold of the source's "push a separator before every element but
the first" serialization loops. -/
def sepJoinAux (sep : String) : List String → String → String
  | [], acc => acc
  | x :: rest, acc => sepJoinAux sep rest (acc ++ sep ++ x)

/-- The source's separator-push loop: join a list with `sep` between
consecutive elements. -/
def sepJoin (sep : String) : List String → String
  | [] => ""
  | x :: rest => sepJoinAux sep rest x

theorem strFoldlAppend (l : List String) (acc : String) :
    l.foldl (· ++ ·) acc = acc ++ l.foldl (· ++ ·) "" := by
  induction l generalizing acc with
  | nil => simp
  | cons x rest ih =>
    simp only [List.foldl_cons]
    rw [ih (acc ++ x), ih ("" ++ x)]
    simp [String.append_assoc]

theorem strJoin_cons (a : String) (l : List String) :
    String.join (a :: l) = a ++ String.join l := by
  simp only [String.join, List.foldl_cons]
  rw [strFoldlAppend l ("" ++ a)]
  simp

theorem sepJoinAux_eq (sep : String) (l : List String) (acc : String) :
    sepJoinAux sep l acc = acc ++ String.join (l.map fun x => sep ++ x) := by
  induction l generalizing acc with
  | nil => simp [sepJoinAux, String.join]
  | cons x rest ih =>
    simp only [sepJoinAux, List.map_cons]
    rw [ih (acc ++ sep ++ x), strJoin_cons]
    simp [String.append_assoc]

theorem sepJoin_eq_join_intersperse (sep : String) (l : List String) :
    sepJoin sep l = String.join (l.intersperse sep) := by
  cases l with
  | nil => rfl
  | cons x rest =>
    simp only [sepJoin]
    rw [sepJoinAux_eq]
    induction rest generalizing x with
    | nil => simp [String.join]
    | cons y t ih =>
      simp only [List.intersperse, List.map_cons]
      rw [strJoin_cons, strJoin_cons, strJoin_cons, ← String.append_assoc]
      rw [← ih]
      simp [String.append_assoc]

/-! ## Percent-Encoder (`client.rs`: `STRICT_ENCODE_SET`, `STRICT_PATH_ENCODE_SET`) -/

/-- Membership in `STRICT_ENCODE_SET` (`client.rs` lines 15-19):
`NON_ALPHANUMERIC` minus `-`, `.`, `_`, `~`.  The `percent_encoding`
crate always escapes non-ASCII bytes, so a byte is escaped iff this
predicate holds. -/
def STRICT_ENCODE_SET (b : Nat) : Bool :=
  !((65 ≤ b && b ≤ 90) || (97 ≤ b && b ≤ 122) || (48 ≤ b && b ≤ 57) ||
    b == 45 || b == 46 || b == 95 || b == 126)

/-- Membership in `STRICT_PATH_ENCODE_SET` (`client.rs` line 22): the
strict set with `/` additionally exempt. -/
def STRICT_PATH_ENCODE_SET (b : Nat) : Bool :=
  STRICT_ENCODE_SET b && !(b == 47)

/-- One byte under `utf8_percent_encode`: left alone if exempt from the
set, otherwise `%XY` with upper-case hex. -/
def percentEncodeByte (inSet : Nat → Bool) (b : Nat) : String :=
  if inSet b then String.mk ['%', hexDigitUpper (b / 16 % 16), hexDigitUpper (b % 16)]
  else String.mk [Char.ofNat b]

/-- `utf8_percent_encode(s, set)`: percent-encode the UTF-8 bytes of `s`. -/
def utf8_percent_encode (s : String) (inSet : Nat → Bool) : String :=
  String.join ((strBytes s).map (percentEncodeByte inSet))

/-- `encode_path` from `client.rs`: the object key encoded with the
path policy (slash kept). -/
def encode_path (key : String) : String :=
  utf8_percent_encode key STRICT_PATH_ENCODE_SET

/-- `format_http_range` from `client.rs` line 114-116:
`format!("bytes={}-{}", range.start, range.end.saturating_sub(1))`.
`usize::saturating_sub 1` is `Nat` subtraction. -/
def format_http_range (range : Nat × Nat) : String :=
  "bytes=" ++ natToStr range.1 ++ "-" ++ natToStr (range.2 - 1)

/-! ## Query parsing (the `url` crate's `query_pairs`) and `canonicalize_query` -/

/-- Hex value of an ASCII hex digit, if it is one
(`percent_encoding::percent_decode` accepts both cases). -/
def hexVal (b : Nat) : Option Nat :=
  if 48 ≤ b && b ≤ 57 then some (b - 48)
  else if 97 ≤ b && b ≤ 102 then some (b - 87)
  else if 65 ≤ b && b ≤ 70 then some (b - 55)
  else none

/-- `percent_decode`: `%XY` with two hex digits becomes one byte; a `%`
not followed by two hex digits is kept literally and scanning resumes at
the next byte. -/
def percentDecode : List Nat → List Nat
  | [] => []
  | 37 :: h :: l :: rest =>
    match hexVal h, hexVal l with
    | some hv, some lv => (hv * 16 + lv) :: percentDecode rest
    | _, _ => 37 :: percentDecode (h :: l :: rest)
  | b :: rest => b :: percentDecode rest

/-- Is `b` a UTF-8 continuation byte? -/
def isCont (b : Nat) : Bool := 0x80 ≤ b && b ≤ 0xBF

/-- The replacement character U+FFFD. -/
def replChar : Char := Char.ofNat 0xFFFD

/-- `String::from_utf8_lossy`: decode UTF-8, replacing each maximal
invalid subpart with U+FFFD (Rust's error-length convention: an invalid
sequence consumes the bytes that matched a valid prefix pattern, or one
byte if none did). -/
def utf8LossyChars : List Nat → List Char
  | [] => []
  | b :: rest =>
    if b < 0x80 then Char.ofNat b :: utf8LossyChars rest
    else if 0xC2 ≤ b && b ≤ 0xDF then
      match rest with
      | [] => [replChar]
      | b2 :: rest2 =>
        if isCont b2 then Char.ofNat ((b - 0xC0) * 64 + (b2 - 0x80)) :: utf8LossyChars rest2
        else replChar :: utf8LossyChars (b2 :: rest2)
    else if (b == 0xE0 || (0xE1 ≤ b && b ≤ 0xEF)) then
      match rest with
      | [] => [replChar]
      | b2 :: rest2 =>
        if (if b == 0xE0 then 0xA0 ≤ b2 && b2 ≤ 0xBF
            else if b == 0xED then 0x80 ≤ b2 && b2 ≤ 0x9F
            else isCont b2) then
          match rest2 with
          | [] => [replChar]
          | b3 :: rest3 =>
            if isCont b3 then
              Char.ofNat ((b - 0xE0) * 4096 + (b2 - 0x80) * 64 + (b3 - 0x80)) :: utf8LossyChars rest3
            else replChar :: utf8LossyChars (b3 :: rest3)
        else replChar :: utf8LossyChars (b2 :: rest2)
    else if 0xF0 ≤ b && b ≤ 0xF4 then
      match rest with
      | [] => [replChar]
      | b2 :: rest2 =>
        if (if b == 0xF0 then 0x90 ≤ b2 && b2 ≤ 0xBF
            else if b == 0xF4 then 0x80 ≤ b2 && b2 ≤ 0x8F
            else isCont b2) then
          match rest2 with
          | [] => [replChar]
          | b3 :: rest3 =>
            if isCont b3 then
              match rest3 with
              | [] => [replChar]
              | b4 :: rest4 =>
                if isCont b4 then
                  Char.ofNat ((b - 0xF0) * 0x40000 + (b2 - 0x80) * 4096 +
                    (b3 - 0x80) * 64 + (b4 - 0x80)) :: utf8LossyChars rest4
                else replChar :: utf8LossyChars (b4 :: rest4)
            else replChar :: utf8LossyChars (b3 :: rest3)
        else replChar :: utf8LossyChars (b2 :: rest2)
    else replChar :: utf8LossyChars rest

/-- `String::from_utf8_lossy` producing a Lean `String`. -/
def utf8Lossy (bs : List Nat) : String := String.mk (utf8LossyChars bs)

/-- Decoding of one `query_pairs` component: `+` becomes space, then
percent-decoding, then lossy UTF-8 decoding. -/
def decodeComponent (bs : List Nat) : String :=
  utf8Lossy (percentDecode (bs.map fun b => if b == 43 then 32 else b))

/-- Split a byte string on a separator byte (empty pieces kept). -/
def splitOnByte (sep : Nat) : List Nat → List (List Nat)
  | [] => [[]]
  | b :: rest =>
    match splitOnByte sep rest with
    | cur :: parts => if b == sep then [] :: cur :: parts else (b :: cur) :: parts
    | [] => [[b]]

/-- One `&`-separated piece split at the first `=` (absent `=` gives an
empty value), both halves decoded. -/
def parseQueryPair (seq : List Nat) : String × String :=
  (decodeComponent (seq.takeWhile fun b => !(b == 61)),
   decodeComponent (((seq.dropWhile fun b => !(b == 61))).drop 1))

/-- The `url` crate's `Url::query_pairs()` on a raw query string: split
on `&`, skip empty pieces, split each piece at its first `=`,
form-urlencoded-decode both halves. -/
def query_pairs (q : String) : List (String × String) :=
  ((splitOnByte 38 (strBytes q)).filter fun seq => !seq.isEmpty).map parseQueryPair

/-- The key order used by `canonicalize_query`'s sort
(`headers.sort_unstable_by(|(a, _), (b, _)| a.cmp(b))`): Rust `str`
comparison of the decoded keys. -/
def keyLe (a b : String × String) : Prop := strLe a.1 b.1 = true

instance : DecidableRel keyLe := fun a b => instDecidableEqBool (strLe a.1 b.1) true

/-- The decoded query pairs in the order `canonicalize_query` serializes
them.  The source sorts with `sort_unstable_by` comparing only keys;
`insertionSort` is the model used here (it agrees with the source's
sort on the ordering of distinct keys; see the development notes on
equal keys). -/
def canonicalQueryPairs (q : String) : List (String × String) :=
  List.insertionSort keyLe (query_pairs q)

/-- `canonicalize_query` from `credentials.rs` lines 170-196: empty or
absent query gives `""`; otherwise the pairs are sorted by decoded key
and serialized as `k=v` joined by `&`, both sides re-encoded with the
strict policy. -/
def canonicalize_query (query : Option String) : String :=
  match query with
  | none => ""
  | some q =>
    if q.isEmpty then ""
    else
      sepJoin "&" ((canonicalQueryPairs q).map fun kv =>
        utf8_percent_encode kv.1 STRICT_ENCODE_SET ++ "=" ++
        utf8_percent_encode kv.2 STRICT_ENCODE_SET)

/-! ## Header canonicalization (`credentials.rs` lines 201-242) -/

/-- Rust `char::is_whitespace` (the Unicode `White_Space` property),
used by `str::trim` on header values. -/
def isRustWhitespace (c : Char) : Bool :=
  (9 ≤ c.toNat && c.toNat ≤ 13) || c.toNat == 32 || c.toNat == 0x85 ||
  c.toNat == 0xA0 || c.toNat == 0x1680 ||
  (0x2000 ≤ c.toNat && c.toNat ≤ 0x200A) || c.toNat == 0x2028 ||
  c.toNat == 0x2029 || c.toNat == 0x202F || c.toNat == 0x205F || c.toNat == 0x3000

/-- Rust `str::trim`: drop leading and trailing whitespace. -/
def rustTrim (s : String) : String :=
  String.mk (((s.data.dropWhile isRustWhitespace).reverse.dropWhile isRustWhitespace).reverse)

/-- The header names `canonicalize_headers` skips
(`credentials.rs` line 209). -/
def reservedHeaders : List String := ["authorization", "content-length", "user-agent"]

/-- Insertion into the `BTreeMap<&str, Vec<&str>>` model: a key-sorted
association list; an existing key has the value appended, a new key is
placed at its sorted position. -/
def btInsert : List (String × List String) → String → String → List (String × List String)
  | [], k, v => [(k, [v])]
  | (k', vs) :: rest, k, v =>
    if k = k' then (k', vs ++ [v]) :: rest
    else if strLt k k' then (k, [v]) :: (k', vs) :: rest
    else (k', vs) :: btInsert rest k v

/-- The grouping loop of `canonicalize_headers` (lines 202-218) run from
an accumulator: reserved names are skipped, the rest are grouped by name
into the sorted map. -/
def groupHeadersFrom (acc : List (String × List String)) (hm : List (String × String)) :
    List (String × List String) :=
  hm.foldl (fun acc kv => if kv.1 ∈ reservedHeaders then acc else btInsert acc kv.1 kv.2) acc

/-- The grouped, name-sorted headers of a header map. -/
def groupHeaders (hm : List (String × String)) : List (String × List String) :=
  groupHeadersFrom [] hm

/-- The `name:value1,value2\n` line for one grouped header
(lines 230-238): values are trimmed and comma-joined in order. -/
def headerLine (name : String) (values : List String) : String :=
  name ++ ":" ++ sepJoin "," (values.map rustTrim) ++ "\n"

/-- `canonicalize_headers` from `credentials.rs` lines 201-242: returns
`(signed_headers, canonical_headers)`. -/
def canonicalize_headers (hm : List (String × String)) : String × String :=
  let headers := groupHeaders hm
  (sepJoin ";" (headers.map Prod.fst),
   String.join (headers.map fun nv => headerLine nv.1 nv.2))

/-- Assoc-list lookup collecting the value list of a key (empty if the
key is absent). -/
def findVals (acc : List (String × List String)) (k : String) : List String :=
  match acc.find? fun p => p.1 == k with
  | some p => p.2
  | none => []

/-- The values a header map holds for a non-reserved name, in original
order; reserved names contribute nothing. -/
def specValues (hm : List (String × String)) (k : String) : List String :=
  if k ∈ reservedHeaders then []
  else (hm.filter fun p => p.1 == k).map Prod.snd

/-! ## Order facts about the embedded `str` comparison -/

theorem charEq_of_toNat_eq {a b : Char} (h : a.toNat = b.toNat) : a = b := by
  have hv : a.val = b.val := by
    apply UInt32.ext
    simpa [UInt32.toNat] using h
  exact Char.eq_of_val_eq hv

theorem charListLe_refl : ∀ as, charListLe as as = true
  | [] => rfl
  | a :: as => by simp [charListLe, charListLe_refl as]

theorem charListLe_total : ∀ as bs, charListLe as bs = true ∨ charListLe bs as = true
  | [], _ => Or.inl rfl
  | _ :: _, [] => Or.inr rfl
  | a :: as, b :: bs => by
    rcases Nat.lt_trichotomy a.toNat b.toNat with h | h | h
    · left; simp [charListLe, h]
    · have : ¬ a.toNat < b.toNat := by omega
      have h2 : ¬ b.toNat < a.toNat := by omega
      rcases charListLe_total as bs with ih | ih
      · left; simp [charListLe, this, h2, ih]
      · right; simp [charListLe, this, h2, ih]
    · right; simp [charListLe, h]

theorem charListLe_trans : ∀ as bs cs, charListLe as bs = true → charListLe bs cs = true →
    charListLe as cs = true
  | [], _, _ => by intro _ _; rfl
  | a :: as, [], _ => by intro h _; simp [charListLe] at h
  | _ :: _, _ :: _, [] => by intro _ h; simp [charListLe] at h
  | a :: as, b :: bs, c :: cs => by
    intro h1 h2
    simp only [charListLe] at h1 h2 ⊢
    rcases Nat.lt_trichotomy a.toNat b.toNat with hab | hab | hab <;>
      rcases Nat.lt_trichotomy b.toNat c.toNat with hbc | hbc | hbc <;>
      simp_all [Nat.lt_irrefl] <;>
      first
        | omega
        | (have hac : ¬ a.toNat < c.toNat := by omega
           have hca : ¬ c.toNat < a.toNat := by omega
           simp_all
           exact charListLe_trans as bs cs h1 h2)

theorem charListLe_antisymm : ∀ as bs, charListLe as bs = true → charListLe bs as = true →
    as = bs
  | [], [] => by intro _ _; rfl
  | [], _ :: _ => by intro _ h; simp [charListLe] at h
  | _ :: _, [] => by intro h _; simp [charListLe] at h
  | a :: as, b :: bs => by
    intro h1 h2
    simp only [charListLe] at h1 h2
    rcases Nat.lt_trichotomy a.toNat b.toNat with hab | hab | hab
    · simp_all [Nat.lt_irrefl]; omega
    · have h3 : ¬ a.toNat < b.toNat := by omega
      have h4 : ¬ b.toNat < a.toNat := by omega
      simp_all
      exact ⟨charEq_of_toNat_eq hab, charListLe_antisymm as bs h1 h2⟩
    · simp_all [Nat.lt_irrefl]; omega

theorem strLe_refl (a : String) : strLe a a = true := charListLe_refl a.data

theorem strLe_total (a b : String) : strLe a b = true ∨ strLe b a = true :=
  charListLe_total a.data b.data

theorem strLe_trans {a b c : String} (h1 : strLe a b = true) (h2 : strLe b c = true) :
    strLe a c = true :=
  charListLe_trans a.data b.data c.data h1 h2

theorem strLe_antisymm {a b : String} (h1 : strLe a b = true) (h2 : strLe b a = true) :
    a = b :=
  String.ext (charListLe_antisymm a.data b.data h1 h2)

/-- The strict-order Prop form of `strLt`, used for sortedness claims. -/
def strLtP (a b : String) : Prop := strLt a b = true

instance : DecidableRel strLtP := fun a b => instDecidableEqBool (strLt a b) true

theorem strLtP_iff {a b : String} : strLtP a b ↔ (strLe a b = true ∧ a ≠ b) := by
  unfold strLtP strLt
  constructor
  · intro h
    have h1 := (Bool.and_eq_true _ _).mp h
    refine ⟨h1.1, ?_⟩
    intro hab
    subst hab
    simp at h1
  · intro h
    have : (a == b) = false := by
      simpa [beq_iff_eq] using h.2
    simp [h.1, this]

instance : IsIrrefl String strLtP :=
  ⟨fun _ h => ((strLtP_iff.mp h).2 rfl)⟩

theorem strLtP_trans {a b c : String} (h1 : strLtP a b) (h2 : strLtP b c) : strLtP a c := by
  rcases strLtP_iff.mp h1 with ⟨hab, hne⟩
  rcases strLtP_iff.mp h2 with ⟨hbc, hne2⟩
  refine strLtP_iff.mpr ⟨strLe_trans hab hbc, ?_⟩
  rintro rfl
  exact hne (strLe_antisymm hab hbc)

instance : IsTrans String strLtP := ⟨fun _ _ _ => strLtP_trans⟩

theorem strLtP_of_not_lt {k k' : String} (hne : k ≠ k') (hnlt : ¬ strLtP k k') :
    strLtP k' k := by
  rcases strLe_total k k' with h | h
  · exact absurd (strLtP_iff.mpr ⟨h, hne⟩) hnlt
  · exact strLtP_iff.mpr ⟨h, fun e => hne e.symm⟩

/-! ## Properties of the grouped-header map -/

theorem mem_keys_btInsert (acc : List (String × List String)) (k : String) (v x : String) :
    x ∈ (btInsert acc k v).map Prod.fst ↔ (x = k ∨ x ∈ acc.map Prod.fst) := by
  induction acc with
  | nil => simp [btInsert]
  | cons p rest ih =>
    obtain ⟨k', vs⟩ := p
    by_cases h1 : k = k'
    · subst h1
      simp [btInsert]
    · by_cases h2 : strLt k k' = true
      · simp only [btInsert, if_neg h1, if_pos h2, List.map_cons, List.mem_cons]
      · simp only [btInsert, if_neg h1, if_neg h2, List.map_cons, List.mem_cons, ih]
        tauto

theorem sorted_keys_btInsert (acc : List (String × List String)) (k v : String)
    (h : List.Sorted strLtP (acc.map Prod.fst)) :
    List.Sorted strLtP ((btInsert acc k v).map Prod.fst) := by
  induction acc with
  | nil => simp [btInsert]
  | cons p rest ih =>
    obtain ⟨k', vs⟩ := p
    simp only [List.map_cons, List.sorted_cons] at h
    by_cases h1 : k = k'
    · subst h1
      simpa [btInsert, List.sorted_cons] using h
    · by_cases h2 : strLt k k' = true
      · simp only [btInsert, if_neg h1, if_pos h2, List.map_cons, List.sorted_cons]
        refine ⟨?_, h.1, h.2⟩
        intro b hb
        rcases List.mem_cons.mp hb with rfl | hb
        · exact h2
        · exact strLtP_trans h2 (h.1 b hb)
      · simp only [btInsert, if_neg h1, if_neg h2, List.map_cons, List.sorted_cons]
        refine ⟨?_, ih h.2⟩
        intro b hb
        rcases (mem_keys_btInsert rest k v b).mp hb with rfl | hb
        · exact strLtP_of_not_lt h1 h2
        · exact h.1 b hb

theorem findVals_eq_nil_of_not_mem (acc : List (String × List String)) (k : String)
    (h : k ∉ acc.map Prod.fst) : findVals acc k = [] := by
  unfold findVals
  rw [List.find?_eq_none.mpr]
  intro p hp
  simp only [beq_iff_eq]
  intro hpk
  exact h (hpk ▸ List.mem_map_of_mem Prod.fst hp)

theorem findVals_btInsert (acc : List (String × List String)) (k v k' : String)
    (h : List.Sorted strLtP (acc.map Prod.fst)) :
    findVals (btInsert acc k v) k' =
      findVals acc k' ++ (if k' = k then [v] else []) := by
  induction acc with
  | nil =>
    by_cases hk : k' = k
    · subst hk; simp [btInsert, findVals]
    · have hne : (k == k') = false := by simpa [beq_iff_eq] using fun e => hk e.symm
      simp [btInsert, findVals, List.find?, hne, hk]
  | cons p rest ih =>
    obtain ⟨k₀, vs⟩ := p
    simp only [List.map_cons, List.sorted_cons] at h
    by_cases h1 : k = k₀
    · subst h1
      by_cases hk : k' = k
      · subst hk
        simp [btInsert, findVals, List.find?_cons, beq_iff_eq]
      · have hne : (k == k') = false := by simpa [beq_iff_eq] using fun e => hk e.symm
        simp [btInsert, findVals, List.find?_cons, hne, hk]
    · by_cases h2 : strLt k k₀ = true
      · -- the new key is below the head, hence absent from the whole list
        have hknotin : k ∉ ((k₀, vs) :: rest).map Prod.fst := by
          simp only [List.map_cons, List.mem_cons]
          rintro (rfl | hmem2)
          · exact (instIsIrreflStringStrLtP.irrefl k) h2
          · exact (instIsIrreflStringStrLtP.irrefl k) (strLtP_trans h2 (h.1 k hmem2))
        by_cases hk : k' = k
        · have hold : findVals ((k₀, vs) :: rest) k = [] :=
            findVals_eq_nil_of_not_mem _ _ hknotin
          rw [hk]
          simp only [btInsert, if_neg h1, if_pos h2, hold, if_pos rfl, List.nil_append]
          simp [findVals, List.find?_cons]
        · have hne : (k == k') = false := by simpa [beq_iff_eq] using fun e => hk e.symm
          simp [btInsert, if_neg h1, if_pos h2, findVals, List.find?_cons, hne, hk]
      · by_cases hk0 : k₀ = k'
        · have hbeq : (k₀ == k') = true := by simpa [beq_iff_eq] using hk0
          have hk'k : ¬ k' = k := fun e => h1 (hk0.trans e).symm
          simp [btInsert, if_neg h1, if_neg h2, findVals, List.find?_cons, hbeq, hk'k]
        · have hne : (k₀ == k') = false := by simpa [beq_iff_eq] using hk0
          simp only [btInsert, if_neg h1, if_neg h2, findVals, List.find?_cons, hne]
          have := ih h.2
          simpa [findVals] using this

theorem sorted_keys_groupHeadersFrom (hm : List (String × String))
    (acc : List (String × List String))
    (h : List.Sorted strLtP (acc.map Prod.fst)) :
    List.Sorted strLtP ((groupHeadersFrom acc hm).map Prod.fst) := by
  induction hm generalizing acc with
  | nil => exact h
  | cons kv rest ih =>
    simp only [groupHeadersFrom, List.foldl_cons] at *
    by_cases hres : kv.1 ∈ reservedHeaders
    · rw [if_pos hres]; exact ih acc h
    · rw [if_neg hres]; exact ih _ (sorted_keys_btInsert acc kv.1 kv.2 h)

theorem mem_keys_groupHeadersFrom (hm : List (String × String))
    (acc : List (String × List String)) (x : String) :
    x ∈ (groupHeadersFrom acc hm).map Prod.fst ↔
      (x ∈ acc.map Prod.fst ∨ (x ∉ reservedHeaders ∧ x ∈ hm.map Prod.fst)) := by
  induction hm generalizing acc with
  | nil => simp [groupHeadersFrom]
  | cons kv rest ih =>
    simp only [groupHeadersFrom, List.foldl_cons] at *
    by_cases hres : kv.1 ∈ reservedHeaders
    · rw [if_pos hres, ih]
      simp only [List.map_cons, List.mem_cons]
      constructor
      · rintro (hx | ⟨hnx, hxr⟩)
        · exact Or.inl hx
        · exact Or.inr ⟨hnx, Or.inr hxr⟩
      · rintro (hx | ⟨hnx, rfl | hxr⟩)
        · exact Or.inl hx
        · exact absurd hres hnx
        · exact Or.inr ⟨hnx, hxr⟩
    · rw [if_neg hres, ih]
      simp only [mem_keys_btInsert, List.map_cons, List.mem_cons]
      constructor
      · rintro ((rfl | hx) | ⟨hnx, hxr⟩)
        · exact Or.inr ⟨hres, Or.inl rfl⟩
        · exact Or.inl hx
        · exact Or.inr ⟨hnx, Or.inr hxr⟩
      · rintro (hx | ⟨hnx, rfl | hxr⟩)
        · exact Or.inl (Or.inr hx)
        · exact Or.inl (Or.inl rfl)
        · exact Or.inr ⟨hnx, hxr⟩

theorem findVals_groupHeadersFrom (hm : List (String × String))
    (acc : List (String × List String)) (k : String)
    (h : List.Sorted strLtP (acc.map Prod.fst)) :
    findVals (groupHeadersFrom acc hm) k = findVals acc k ++ specValues hm k := by
  induction hm generalizing acc with
  | nil => simp [groupHeadersFrom, specValues]
  | cons kv rest ih =>
    obtain ⟨k₀, v₀⟩ := kv
    simp only [groupHeadersFrom, List.foldl_cons] at *
    by_cases hres : k₀ ∈ reservedHeaders
    · rw [if_pos hres, ih acc h]
      congr 1
      by_cases hk : k ∈ reservedHeaders
      · simp [specValues, hk]
      · have hkk0 : (k₀ == k) = false := by
          rw [beq_eq_false_iff_ne]
          intro e
          exact hk (e ▸ hres)
        simp [specValues, hk, List.filter_cons, hkk0]
    · rw [if_neg hres, ih _ (sorted_keys_btInsert acc k₀ v₀ h),
        findVals_btInsert acc k₀ v₀ k h]
      rw [List.append_assoc]
      congr 1
      by_cases hk : k ∈ reservedHeaders
      · have hne : ¬ k = k₀ := fun e => hres (e ▸ hk)
        simp [specValues, hk, if_neg hne]
      · by_cases hkk : k = k₀
        · subst hkk
          simp [specValues, hk, List.filter_cons]
        · have hbeq : (k₀ == k) = false := by
            simpa [beq_iff_eq] using fun e => hkk e.symm
          simp [specValues, hk, List.filter_cons, hbeq, hkk]

theorem sorted_keys_groupHeaders (hm : List (String × String)) :
    List.Sorted strLtP ((groupHeaders hm).map Prod.fst) :=
  sorted_keys_groupHeadersFrom hm [] (by simp)

theorem mem_keys_groupHeaders (hm : List (String × String)) (x : String) :
    x ∈ (groupHeaders hm).map Prod.fst ↔
      (x ∉ reservedHeaders ∧ x ∈ hm.map Prod.fst) := by
  rw [groupHeaders, mem_keys_groupHeadersFrom]
  simp

theorem findVals_groupHeaders (hm : List (String × String)) (k : String) :
    findVals (groupHeaders hm) k = specValues hm k := by
  rw [groupHeaders, findVals_groupHeadersFrom hm [] k (by simp)]
  simp [findVals]

theorem map_entries_eq_map_keys {β : Type} (g : List (String × List String))
    (hnd : (g.map Prod.fst).Nodup) (f : String → List String → β) :
    g.map (fun nv => f nv.1 nv.2) = (g.map Prod.fst).map (fun k => f k (findVals g k)) := by
  induction g with
  | nil => rfl
  | cons p rest ih =>
    obtain ⟨n, vs⟩ := p
    simp only [List.map_cons, List.nodup_cons] at hnd ⊢
    have hhead : findVals ((n, vs) :: rest) n = vs := by
      simp [findVals, List.find?_cons]
    rw [hhead, ih hnd.2]
    congr 1
    apply List.map_congr_left
    intro k hk
    have hkn : (n == k) = false := by
      rw [beq_eq_false_iff_ne]
      intro e
      apply hnd.1
      rw [e]
      exact hk
    simp [findVals, List.find?_cons, hkn]

/-! ## Credentials and the request signer (`credentials.rs` lines 17-121) -/

/-- `EMPTY_SHA256_HASH` (`credentials.rs` line 17): the SHA-256 digest of
the empty byte sequence, lower-case hex, hard-coded in the source. -/
def EMPTY_SHA256_HASH : String :=
  "e3b0c44298fc1c149afbf4c8996fb92427ae41e4649b934ca495991b7852b855"

/-- The external byte-level cryptographic primitives from the `ring`
crate.  The repository only chains and formats their outputs, so the
whole development is parametric in them. -/
structure CryptoPrimitives where
  hmacSha256 : List Nat → List Nat → List Nat
  sha256 : List Nat → List Nat

/-- `hex_digest` from `credentials.rs`: SHA-256 of `bytes`, hex-encoded
lower-case. -/
def hex_digest (C : CryptoPrimitives) (bytes : List Nat) : String :=
  hex_encode (C.sha256 bytes)

/-- `AwsCredential` (`credentials.rs` lines 19-24). -/
structure AwsCredential where
  key_id : String
  secret_key : String
  token : Option String

/-- A UTC timestamp, with the two chrono formattings the signer uses. -/
structure DateTimeUtc where
  year : Nat
  month : Nat
  day : Nat
  hour : Nat
  minute : Nat
  second : Nat

/-- chrono `%Y%m%d`. -/
def fmtYYYYMMDD (d : DateTimeUtc) : String :=
  padNat 4 d.year ++ padNat 2 d.month ++ padNat 2 d.day

/-- chrono `%Y%m%dT%H%M%SZ`. -/
def fmtISO8601Basic (d : DateTimeUtc) : String :=
  fmtYYYYMMDD d ++ "T" ++ padNat 2 d.hour ++ padNat 2 d.minute ++ padNat 2 d.second ++ "Z"

/-- `AwsCredential::sign` (`credentials.rs` lines 30-37): the chained
HMAC key derivation and the final lower-case hex signature. -/
def AwsCredential.sign (C : CryptoPrimitives) (cred : AwsCredential) (to_sign : String)
    (date : DateTimeUtc) (region service : String) : String :=
  let date_string := fmtYYYYMMDD date
  let date_hmac := C.hmacSha256 (strBytes ("AWS4" ++ cred.secret_key)) (strBytes date_string)
  let region_hmac := C.hmacSha256 date_hmac (strBytes region)
  let service_hmac := C.hmacSha256 region_hmac (strBytes service)
  let signing_hmac := C.hmacSha256 service_hmac (strBytes "aws4_request")
  hex_encode (C.hmacSha256 signing_hmac (strBytes to_sign))

/-- The request URI, by components as `hyper::Uri` stores them.
`Url::parse(uri.to_string())` in `RequestSigner::sign` succeeds exactly
when the URI is absolute (has a scheme); for the hyper-validated https
URIs this client builds, the parsed URL's query is the URI's query. -/
structure SUri where
  scheme : Option String
  authority : Option String
  path : String
  query : Option String

/-- An outbound request: method, URI and the header map, embedded as an
insertion-ordered list of (lower-case name, value) pairs. -/
structure SRequest where
  method : String
  uri : SUri
  headers : List (String × String)

/-- `HeaderMap::insert`: all previous values of the name are removed and
the single new value is associated with it. -/
def headersInsert (hs : List (String × String)) (name value : String) :
    List (String × String) :=
  (hs.filter fun p => !(p.1 == name)) ++ [(name, value)]

/-- Insert a header on a request. -/
def SRequest.insertHeader (r : SRequest) (name value : String) : SRequest :=
  { r with headers := headersInsert r.headers name value }

/-- Look up the (unique, after inserts) value of a header name. -/
def SRequest.getHeader (r : SRequest) (name : String) : Option String :=
  (r.headers.find? fun p => p.1 == name).map Prod.snd

def DATE_HEADER : String := "x-amz-date"
def HASH_HEADER : String := "x-amz-content-sha256"
def TOKEN_HEADER : String := "x-amz-security-token"
def AUTH_HEADER : String := "authorization"

/-- `RequestSigner` (`credentials.rs` lines 40-45). -/
structure RequestSigner where
  date : DateTimeUtc
  credential : AwsCredential
  service : String
  region : String

/-- `RequestSigner::sign` (`credentials.rs` lines 55-120), success path:
set the token header (when a token is present), the date header and the
payload-hash header; canonicalize; hash the canonical request; build the
string to sign; sign it; set the `authorization` header. -/
def RequestSigner.sign (C : CryptoPrimitives) (s : RequestSigner) (request : SRequest) :
    SRequest :=
  let request := match s.credential.token with
    | some token => request.insertHeader TOKEN_HEADER token
    | none => request
  let date_str := fmtISO8601Basic s.date
  let request := request.insertHeader DATE_HEADER date_str
  let digest := EMPTY_SHA256_HASH
  let request := request.insertHeader HASH_HEADER digest
  let sc := canonicalize_headers request.headers
  let canonical_query := canonicalize_query request.uri.query
  let canonical_request := request.method ++ "\n" ++ request.uri.path ++ "\n" ++
    canonical_query ++ "\n" ++ sc.2 ++ "\n" ++ sc.1 ++ "\n" ++ digest
  let hashed_canonical_request := hex_digest C (strBytes canonical_request)
  let scope := fmtYYYYMMDD s.date ++ "/" ++ s.region ++ "/" ++ s.service ++ "/aws4_request"
  let string_to_sign := "AWS4-HMAC-SHA256\n" ++ fmtISO8601Basic s.date ++ "\n" ++ scope ++
    "\n" ++ hashed_canonical_request
  let signature := s.credential.sign C string_to_sign s.date s.region s.service
  let authorisation := "AWS4-HMAC-SHA256 Credential=" ++ s.credential.key_id ++ "/" ++ scope ++
    ", SignedHeaders=" ++ sc.1 ++ ", Signature=" ++ signature
  request.insertHeader AUTH_HEADER authorisation

/-! ## Header map lemmas -/

theorem find?_filter_ne_append (hs : List (String × String)) (name value : String) :
    List.find? (fun p => p.1 == name)
      ((hs.filter fun p => !(p.1 == name)) ++ [(name, value)]) = some (name, value) := by
  induction hs with
  | nil => simp [List.find?]
  | cons p rest ih =>
    by_cases hp : (p.1 == name) = true
    · simp only [List.filter_cons, hp, Bool.not_true, List.find?]
      exact ih
    · have hp' : (p.1 == name) = false := by simpa using hp
      simp only [List.filter_cons, hp', Bool.not_false, List.cons_append, List.find?, hp']
      exact ih

theorem getHeader_insertHeader_self (r : SRequest) (name value : String) :
    (r.insertHeader name value).getHeader name = some value := by
  simp [SRequest.insertHeader, SRequest.getHeader, headersInsert, find?_filter_ne_append]

theorem find?_headersInsert_ne (hs : List (String × String)) (name value n : String)
    (h : n ≠ name) :
    List.find? (fun p => p.1 == n) (headersInsert hs name value) =
      List.find? (fun p => p.1 == n) hs := by
  induction hs with
  | nil =>
    have : (name == n) = false := by
      rw [beq_eq_false_iff_ne]
      exact fun e => h e.symm
    simp [headersInsert, List.find?, this]
  | cons p rest ih =>
    by_cases hpname : (p.1 == name) = true
    · -- the head is dropped by the filter, and (n ≠ name) it cannot match n
      have hp' : ¬ ((p.1 == n) = true) := by
        rw [beq_iff_eq]
        intro e
        exact h (e.symm.trans (beq_iff_eq.mp hpname))
      have hp2 : (p.1 == n) = false := by simpa using hp'
      rw [headersInsert, List.filter_cons_of_neg (by simp [hpname])]
      simp only [List.find?_cons, hp2]
      exact ih
    · rw [headersInsert, List.filter_cons_of_pos (by simp [hpname]), List.cons_append]
      by_cases hp : (p.1 == n) = true
      · simp only [List.find?_cons, hp]
      · have hp2 : (p.1 == n) = false := by simpa using hp
        simp only [List.find?_cons, hp2]
        exact ih

theorem getHeader_insertHeader_ne (r : SRequest) (name value n : String) (h : n ≠ name) :
    (r.insertHeader name value).getHeader n = r.getHeader n := by
  simp only [SRequest.insertHeader, SRequest.getHeader]
  rw [find?_headersInsert_ne r.headers name value n h]

/-! ## The fallible signer: every `unwrap` in `RequestSigner::sign` made explicit -/

/-- Validity of one byte of a `HeaderValue` (the `http` crate's
`HeaderValue::from_str` check): visible bytes 32..=255 except DEL,
plus horizontal tab. -/
def isValidHeaderValueByte (b : Nat) : Bool :=
  b == 9 || (32 ≤ b && !(b == 127))

/-- A string is representable as a `HeaderValue`. -/
def isValidHeaderValueStr (s : String) : Bool :=
  (strBytes s).all isValidHeaderValueByte

/-- `HeaderValue::from_str`, returning `none` where the source would
return `Err` (and the signer would panic on `unwrap`). -/
def HeaderValue.from_str (s : String) : Option String :=
  if isValidHeaderValueStr s then some s else none

/-- `Url::parse(request.uri().to_string())`, modelled on the URI
components: the parse of a hyper-validated URI succeeds exactly when the
URI is absolute (`RelativeUrlWithoutBase` otherwise). -/
def Url.parse (u : SUri) : Option SUri :=
  if u.scheme.isSome then some u else none

/-- The UTF-8 validation-and-decoding automaton of `std::str::from_utf8`,
one byte per step: `pending` is the partially assembled scalar value,
`need` the number of continuation bytes still required, and `[lo, hi]`
the admissible range of the next byte (the per-lead second-byte ranges —
`E0: A0..BF`, `ED: 80..9F`, `F0: 90..BF`, `F4: 80..8F` — are the
standard shortest-form/no-surrogate constraints Rust core checks).
Any invalid lead, out-of-range continuation or truncated sequence
gives `none`. -/
def utf8DecodeLoop : Nat → Nat → Nat → Nat → List Nat → Option (List Char)
  | _, need, _, _, [] => if need = 0 then some [] else none
  | pending, need, lo, hi, b :: rest =>
    if need = 0 then
      if b < 0x80 then (utf8DecodeLoop 0 0 0 0 rest).map fun cs => Char.ofNat b :: cs
      else if 0xC2 ≤ b ∧ b ≤ 0xDF then utf8DecodeLoop (b - 0xC0) 1 0x80 0xBF rest
      else if b = 0xE0 then utf8DecodeLoop (b - 0xE0) 2 0xA0 0xBF rest
      else if b = 0xED then utf8DecodeLoop (b - 0xE0) 2 0x80 0x9F rest
      else if 0xE1 ≤ b ∧ b ≤ 0xEF then utf8DecodeLoop (b - 0xE0) 2 0x80 0xBF rest
      else if b = 0xF0 then utf8DecodeLoop (b - 0xF0) 3 0x90 0xBF rest
      else if b = 0xF4 then utf8DecodeLoop (b - 0xF0) 3 0x80 0x8F rest
      else if 0xF1 ≤ b ∧ b ≤ 0xF3 then utf8DecodeLoop (b - 0xF0) 3 0x80 0xBF rest
      else none
    else
      if lo ≤ b ∧ b ≤ hi then
        if need = 1 then
          (utf8DecodeLoop 0 0 0 0 rest).map fun cs =>
            Char.ofNat (pending * 64 + (b - 0x80)) :: cs
        else utf8DecodeLoop (pending * 64 + (b - 0x80)) (need - 1) 0x80 0xBF rest
      else none

/-- Strict UTF-8 decoding of a byte sequence, from the initial automaton
state. -/
def utf8DecodeChars? (bs : List Nat) : Option (List Char) :=
  utf8DecodeLoop 0 0 0 0 bs

/-- `std::str::from_utf8(value.as_bytes())` as used at
`credentials.rs:213`: a byte sequence decodes to a string exactly when
it is valid UTF-8. -/
def utf8Decode? (bs : List Nat) : Option String :=
  (utf8DecodeChars? bs).map String.mk

/-- An outbound request with its header values as raw bytes, as
`hyper::HeaderValue` stores them: a `HeaderValue` admits any bytes in
32..=255 except DEL (plus tab), which need not be valid UTF-8.  The
fallible signer acts on this representation so that the
`from_utf8(...).unwrap()` inside `canonicalize_headers` is a real
failure branch. -/
structure SRequestB where
  method : String
  uri : SUri
  headers : List (String × List Nat)

/-- `HeaderMap::insert` on byte-valued headers. -/
def SRequestB.insertHeader (r : SRequestB) (name : String) (value : List Nat) : SRequestB :=
  { r with headers := (r.headers.filter fun p => !(p.1 == name)) ++ [(name, value)] }

/-- A byte-valued request whose header values are the UTF-8 bytes of
strings — the only kind this client itself ever builds (every value it
sets goes through `HeaderValue::from_str`). -/
def SRequestB.ofString (r : SRequest) : SRequestB :=
  ⟨r.method, r.uri, r.headers.map fun p => (p.1, strBytes p.2)⟩

/-- The grouping loop of `canonicalize_headers` (`credentials.rs`
lines 207-218) with the `from_utf8(value.as_bytes()).unwrap()` at line
213 explicit: reserved names are skipped before the decode, every other
value must decode as UTF-8. -/
def groupHeadersE (hm : List (String × List Nat)) : Option (List (String × List String)) :=
  hm.foldl
    (fun acc kv =>
      acc.bind fun m =>
        if kv.1 ∈ reservedHeaders then some m
        else (utf8Decode? kv.2).map fun v => btInsert m kv.1 v)
    (some [])

/-- `canonicalize_headers` over byte-valued headers, failing exactly
where the source's `unwrap` would panic. -/
def canonicalize_headersE (hm : List (String × List Nat)) : Option (String × String) :=
  (groupHeadersE hm).map fun headers =>
    (sepJoin ";" (headers.map Prod.fst),
     String.join (headers.map fun nv => headerLine nv.1 nv.2))

/-- `RequestSigner::sign` with every partial operation — `Url::parse`,
each `HeaderValue::from_str`, and the `from_utf8(value.as_bytes())`
inside `canonicalize_headers` — as an explicit `Option` bind, in source
order, over byte-valued header maps. -/
def RequestSigner.signE (C : CryptoPrimitives) (s : RequestSigner) (request : SRequestB) :
    Option SRequestB := do
  let _url ← Url.parse request.uri
  let request ← match s.credential.token with
    | some token => do
        let token_val ← HeaderValue.from_str token
        pure (request.insertHeader TOKEN_HEADER (strBytes token_val))
    | none => pure request
  let date_str := fmtISO8601Basic s.date
  let date_val ← HeaderValue.from_str date_str
  let request := request.insertHeader DATE_HEADER (strBytes date_val)
  let digest := EMPTY_SHA256_HASH
  let header_digest ← HeaderValue.from_str digest
  let request := request.insertHeader HASH_HEADER (strBytes header_digest)
  let sc ← canonicalize_headersE request.headers
  let canonical_query := canonicalize_query request.uri.query
  let canonical_request := request.method ++ "\n" ++ request.uri.path ++ "\n" ++
    canonical_query ++ "\n" ++ sc.2 ++ "\n" ++ sc.1 ++ "\n" ++ digest
  let hashed_canonical_request := hex_digest C (strBytes canonical_request)
  let scope := fmtYYYYMMDD s.date ++ "/" ++ s.region ++ "/" ++ s.service ++ "/aws4_request"
  let string_to_sign := "AWS4-HMAC-SHA256\n" ++ fmtISO8601Basic s.date ++ "\n" ++ scope ++
    "\n" ++ hashed_canonical_request
  let signature := s.credential.sign C string_to_sign s.date s.region s.service
  let authorisation := "AWS4-HMAC-SHA256 Credential=" ++ s.credential.key_id ++ "/" ++ scope ++
    ", SignedHeaders=" ++ sc.1 ++ ", Signature=" ++ signature
  let authorization_val ← HeaderValue.from_str authorisation
  pure (request.insertHeader AUTH_HEADER (strBytes authorization_val))

/-! ## The client (`client.rs` lines 32-116) -/

/-- `S3ClientError` (`error.rs`): the two wrapped error kinds, with an
opaque message payload. -/
inductive S3ClientError where
  | hyperError (msg : String)
  | httpError (msg : String)
deriving DecidableEq

/-- `S3Config` (`client.rs` lines 32-36).  The credential provider is
embedded by the outcome of `get_credential().await`: either a
credential or the error the supplier surfaces. -/
structure S3Config where
  region : String
  endpoint : String
  credentials : Except S3ClientError AwsCredential

/-- Split `path_and_query` at the first `?` into path and query, as
`hyper::Uri` stores it. -/
def pathAndQuerySplit (s : String) : String × Option String :=
  let pre := s.data.takeWhile fun c => !(c == '?')
  let post := s.data.dropWhile fun c => !(c == '?')
  (String.mk pre, match post with
    | [] => none
    | _ :: qs => some (String.mk qs))

/-- `S3Client::get` (`client.rs` lines 69-107), with the transport as an
explicit function from the final request to either the aggregated
response body bytes or a transport error.  The URI is built from scheme
`https`, the configured endpoint and `{bucket}/{encode_path key}`; the
request is signed at timestamp `now` (`Utc::now()` captured once),
then the `Range` header is added, then the request is dispatched. -/
def S3Client.get (C : CryptoPrimitives)
    (config : S3Config)
    (transport : SRequest → Except S3ClientError (List Nat))
    (now : DateTimeUtc) (bucket key : String) (range : Option (Nat × Nat)) :
    Except S3ClientError (List Nat) := do
  let credential ← config.credentials
  let path := bucket ++ "/" ++ encode_path key
  let pq := pathAndQuerySplit path
  let uri : SUri := ⟨some "https", some config.endpoint, pq.1, pq.2⟩
  let request : SRequest := ⟨"GET", uri, []⟩
  let signer : RequestSigner := ⟨now, credential, "s3", config.region⟩
  let request := RequestSigner.sign C signer request
  let request := match range with
    | some r => request.insertHeader "range" (format_http_range r)
    | none => request
  let response ← transport request
  pure response

/-! ## Claim C2: the Range header -/

/-- C2 counterexample: the claim states that every zero-length or
inverted interval degenerates to `bytes={start}-{start}`, with
`inclusiveEnd = max(start, end-1)`; but at the zero-length interval
`[5, 5)` the code produces `bytes=5-4` (`end.saturating_sub(1)`), not
`bytes=5-5`. -/
theorem c2_range_counterexample :
    format_http_range (5, 5) = "bytes=5-4" ∧ format_http_range (5, 5) ≠ "bytes=5-5" := by
  constructor
  · decide
  · decide

/-- C2 (amended): for every half-open interval `[start, end)` the Range
header value is `bytes={start}-{inclusiveEnd}` with
`inclusiveEnd = end.saturating_sub(1) = max(0, end-1)` (not
`max(start, end-1)`); for `[100, 200)` it is exactly `bytes=100-199` and
for `[0, 0)` it is `bytes=0-0`; a zero-length or inverted interval with
`start > 0` yields an inverted range `bytes={start}-{end-1}`. -/
theorem c2_range_header_format (s e : Nat) :
    format_http_range (s, e) =
      "bytes=" ++ natToStr s ++ "-" ++ natToStr ((max 0 ((e : Int) - 1)).toNat) ∧
    format_http_range (100, 200) = "bytes=100-199" ∧
    format_http_range (0, 0) = "bytes=0-0" := by
  refine ⟨?_, by decide, by decide⟩
  have h : (max 0 ((e : Int) - 1)).toNat = e - 1 := by omega
  rw [h]
  rfl

/-! ## Claim C9: credential failure short-circuits `get` -/

/-- C9: if the credential supplier fails, `get` returns that error for
every transport, every crypto instantiation and every request parameter:
no signing result and no transport result can influence the outcome, so
no dispatch and no signing occur. -/
theorem c9_credential_error_short_circuits (C : CryptoPrimitives)
    (region endpoint : String) (e : S3ClientError)
    (transport : SRequest → Except S3ClientError (List Nat)) (now : DateTimeUtc)
    (bucket key : String) (range : Option (Nat × Nat)) :
    S3Client.get C ⟨region, endpoint, Except.error e⟩ transport now bucket key range =
      Except.error e := rfl

/-! ## Claim C3: canonical query ordering -/

instance : IsTotal (String × String) keyLe :=
  ⟨fun a b => by
    unfold keyLe
    rcases strLe_total a.1 b.1 with h | h
    · exact Or.inl h
    · exact Or.inr h⟩

instance : IsTrans (String × String) keyLe :=
  ⟨fun _ _ _ h1 h2 => strLe_trans h1 h2⟩

/-- C3 counterexample: the claim says entries appear sorted byte-wise by
the percent-encoded key.  For the query `/=1&-=2` the code sorts by the
decoded keys (`-` before `/`) and then encodes, producing `-=2&%2F=1`,
whose encoded keys `-`, `%2F` are not in byte-wise order
(`%` = 0x25 < `-` = 0x2D). -/
theorem c3_query_counterexample :
    canonicalize_query (some "/=1&-=2") = "-=2&%2F=1" ∧
    ((canonicalQueryPairs "/=1&-=2").map fun kv =>
      utf8_percent_encode kv.1 STRICT_ENCODE_SET) = ["-", "%2F"] ∧
    strLe "-" "%2F" = false := by
  refine ⟨by decide, by decide, by decide⟩

/-- C3 (amended): the entries of the canonical query string appear
sorted lexicographically (byte-wise) by the *decoded* key — not by its
percent-encoded form — and both keys and values are percent-encoded with
the strict-unreserved policy; the output is the `&`-join of `k=v`
over the sorted pair list, which is a permutation of the parsed pairs. -/
theorem c3_query_sorted_by_decoded_key (q : String) :
    List.Sorted keyLe (canonicalQueryPairs q) ∧
    (canonicalQueryPairs q).Perm (query_pairs q) ∧
    canonicalize_query (some q) =
      String.join (((canonicalQueryPairs q).map fun kv =>
        utf8_percent_encode kv.1 STRICT_ENCODE_SET ++ "=" ++
        utf8_percent_encode kv.2 STRICT_ENCODE_SET).intersperse "&") := by
  refine ⟨List.sorted_insertionSort keyLe (query_pairs q),
    List.perm_insertionSort keyLe (query_pairs q), ?_⟩
  by_cases hq : q.isEmpty
  · have hq' : q = "" := (String.isEmpty_iff q).mp hq
    subst hq'
    decide
  · simp only [canonicalize_query, if_neg hq]
    exact sepJoin_eq_join_intersperse _ _

/-! ## Derived descriptions of the signer output -/

/-- The header map of the request at canonicalization time inside
`RequestSigner::sign`: the input headers with the token header (when a
token is present), then the date header, then the payload-hash header
inserted. -/
def signingHeaders (s : RequestSigner) (req : SRequest) : List (String × String) :=
  headersInsert (headersInsert
    (match s.credential.token with
      | some token => headersInsert req.headers TOKEN_HEADER token
      | none => req.headers)
    DATE_HEADER (fmtISO8601Basic s.date)) HASH_HEADER EMPTY_SHA256_HASH

/-- The canonical request string `sign` hashes. -/
def canonicalRequestOf (s : RequestSigner) (req : SRequest) : String :=
  req.method ++ "\n" ++ req.uri.path ++ "\n" ++ canonicalize_query req.uri.query ++ "\n" ++
    (canonicalize_headers (signingHeaders s req)).2 ++ "\n" ++
    (canonicalize_headers (signingHeaders s req)).1 ++ "\n" ++ EMPTY_SHA256_HASH

/-- The credential scope string. -/
def scopeOf (s : RequestSigner) : String :=
  fmtYYYYMMDD s.date ++ "/" ++ s.region ++ "/" ++ s.service ++ "/aws4_request"

/-- The string to sign. -/
def stringToSignOf (C : CryptoPrimitives) (s : RequestSigner) (req : SRequest) : String :=
  "AWS4-HMAC-SHA256\n" ++ fmtISO8601Basic s.date ++ "\n" ++ scopeOf s ++ "\n" ++
    hex_digest C (strBytes (canonicalRequestOf s req))

/-- The `authorization` header value `sign` produces. -/
def authValueOf (C : CryptoPrimitives) (s : RequestSigner) (req : SRequest) : String :=
  "AWS4-HMAC-SHA256 Credential=" ++ s.credential.key_id ++ "/" ++ scopeOf s ++
    ", SignedHeaders=" ++ (canonicalize_headers (signingHeaders s req)).1 ++
    ", Signature=" ++ s.credential.sign C (stringToSignOf C s req) s.date s.region s.service

theorem sign_eq (C : CryptoPrimitives) (s : RequestSigner) (req : SRequest) :
    RequestSigner.sign C s req =
      SRequest.insertHeader ⟨req.method, req.uri, signingHeaders s req⟩
        AUTH_HEADER (authValueOf C s req) := by
  cases htok : s.credential.token with
  | none =>
    simp only [RequestSigner.sign, signingHeaders, authValueOf, stringToSignOf, scopeOf,
      canonicalRequestOf, SRequest.insertHeader, htok]
  | some token =>
    simp only [RequestSigner.sign, signingHeaders, authValueOf, stringToSignOf, scopeOf,
      canonicalRequestOf, SRequest.insertHeader, htok]

theorem find?_headersInsert_self (hs : List (String × String)) (n v : String) :
    List.find? (fun p => p.1 == n) (headersInsert hs n v) = some (n, v) := by
  rw [headersInsert]
  exact find?_filter_ne_append hs n v

theorem sign_getHeader_auth_aux (C : CryptoPrimitives) (s : RequestSigner) (req : SRequest) :
    (RequestSigner.sign C s req).getHeader AUTH_HEADER = some (authValueOf C s req) := by
  rw [sign_eq, getHeader_insertHeader_self]

theorem sign_getHeader_date_aux (C : CryptoPrimitives) (s : RequestSigner) (req : SRequest) :
    (RequestSigner.sign C s req).getHeader DATE_HEADER = some (fmtISO8601Basic s.date) := by
  rw [sign_eq]
  rw [getHeader_insertHeader_ne _ _ _ _ (by decide)]
  simp only [SRequest.getHeader, signingHeaders]
  rw [find?_headersInsert_ne _ _ _ _ (by decide)]
  simp only [find?_headersInsert_self]
  rfl

theorem sign_getHeader_hash_aux (C : CryptoPrimitives) (s : RequestSigner) (req : SRequest) :
    (RequestSigner.sign C s req).getHeader HASH_HEADER = some EMPTY_SHA256_HASH := by
  rw [sign_eq]
  rw [getHeader_insertHeader_ne _ _ _ _ (by decide)]
  simp only [SRequest.getHeader, signingHeaders]
  simp only [find?_headersInsert_self]
  rfl

theorem sign_getHeader_token_aux (C : CryptoPrimitives) (s : RequestSigner) (req : SRequest) :
    (RequestSigner.sign C s req).getHeader TOKEN_HEADER =
      match s.credential.token with
      | some t => some t
      | none => req.getHeader TOKEN_HEADER := by
  rw [sign_eq]
  rw [getHeader_insertHeader_ne _ _ _ _ (by decide)]
  simp only [SRequest.getHeader, signingHeaders]
  rw [find?_headersInsert_ne _ _ _ _ (by decide), find?_headersInsert_ne _ _ _ _ (by decide)]
  cases htok : s.credential.token with
  | none => rfl
  | some t =>
    simp only [find?_headersInsert_self]
    rfl

/-! ## Claim C1: the authorization header -/

/-- C1: for every crypto instantiation, request, credential and signing
context, `sign` sets the `authorization` header to exactly
`AWS4-HMAC-SHA256 Credential={keyId}/{scope}, SignedHeaders={signedHeaders}, Signature={signature}`,
where `scope = {YYYYMMDD}/{region}/{service}/aws4_request` and the
signature is the lower-case hex of HMAC-SHA256 of the string-to-sign
under the key derived by the four-step chain
`kDate = HMAC("AWS4" + secretKey, YYYYMMDD)`, `kRegion = HMAC(kDate, region)`,
`kService = HMAC(kRegion, service)`, `kSigning = HMAC(kService, "aws4_request")`. -/
theorem c1_authorization_header_format (C : CryptoPrimitives) (s : RequestSigner)
    (req : SRequest) :
    (RequestSigner.sign C s req).getHeader AUTH_HEADER =
      some
        (let scope := fmtYYYYMMDD s.date ++ "/" ++ s.region ++ "/" ++ s.service ++
          "/aws4_request"
        let kDate := C.hmacSha256 (strBytes ("AWS4" ++ s.credential.secret_key))
          (strBytes (fmtYYYYMMDD s.date))
        let kRegion := C.hmacSha256 kDate (strBytes s.region)
        let kService := C.hmacSha256 kRegion (strBytes s.service)
        let kSigning := C.hmacSha256 kService (strBytes "aws4_request")
        let signature := hex_encode (C.hmacSha256 kSigning (strBytes (stringToSignOf C s req)))
        "AWS4-HMAC-SHA256 Credential=" ++ s.credential.key_id ++ "/" ++ scope ++
          ", SignedHeaders=" ++ (canonicalize_headers (signingHeaders s req)).1 ++
          ", Signature=" ++ signature) := by
  rw [sign_getHeader_auth_aux]
  rfl

/-! ## Claim C6: the supporting headers set by `sign` -/

/-- C6: `sign` sets `x-amz-date` to the `YYYYMMDDTHHMMSSZ` form of the
signing timestamp and `x-amz-content-sha256` to the lower-case hex
SHA-256 digest of the empty byte sequence
(`e3b0c4...b855`), unconditionally on the request body; it sets
`x-amz-security-token` to the credential's session token exactly when
the credential carries one (otherwise the header is left untouched). -/
theorem c6_supporting_headers (C : CryptoPrimitives) (s : RequestSigner) (req : SRequest) :
    (RequestSigner.sign C s req).getHeader DATE_HEADER = some (fmtISO8601Basic s.date) ∧
    (RequestSigner.sign C s req).getHeader HASH_HEADER =
      some "e3b0c44298fc1c149afbf4c8996fb92427ae41e4649b934ca495991b7852b855" ∧
    (RequestSigner.sign C s req).getHeader TOKEN_HEADER =
      (match s.credential.token with
        | some t => some t
        | none => req.getHeader TOKEN_HEADER) :=
  ⟨sign_getHeader_date_aux C s req, sign_getHeader_hash_aux C s req,
    sign_getHeader_token_aux C s req⟩

/-! ## Claim C7: one timestamp used consistently -/

/-- C7: a single captured timestamp `s.date` is used consistently: the
`x-amz-date` header carries its `YYYYMMDDTHHMMSSZ` form, the
string-to-sign carries the same `YYYYMMDDTHHMMSSZ` form, and the scope
(in the authorization header and inside the string-to-sign) and the key
derivation (`AwsCredential.sign` applied at the same `s.date`) use its
`YYYYMMDD` form — all denoting the same instant. -/
theorem c7_single_timestamp (C : CryptoPrimitives) (s : RequestSigner) (req : SRequest) :
    (RequestSigner.sign C s req).getHeader DATE_HEADER = some (fmtISO8601Basic s.date) ∧
    (∃ sh hcr,
      (RequestSigner.sign C s req).getHeader AUTH_HEADER =
        some ("AWS4-HMAC-SHA256 Credential=" ++ s.credential.key_id ++ "/" ++
          (fmtYYYYMMDD s.date ++ "/" ++ s.region ++ "/" ++ s.service ++ "/aws4_request") ++
          ", SignedHeaders=" ++ sh ++ ", Signature=" ++
          s.credential.sign C
            ("AWS4-HMAC-SHA256\n" ++ fmtISO8601Basic s.date ++ "\n" ++
              (fmtYYYYMMDD s.date ++ "/" ++ s.region ++ "/" ++ s.service ++ "/aws4_request") ++
              "\n" ++ hcr)
            s.date s.region s.service)) :=
  ⟨sign_getHeader_date_aux C s req,
    ⟨(canonicalize_headers (signingHeaders s req)).1,
      hex_digest C (strBytes (canonicalRequestOf s req)),
      sign_getHeader_auth_aux C s req⟩⟩

/-! ## Claim C10: the signed-header set of `get` -/

theorem exceptBindPure {ε α : Type} (x : Except ε α) :
    (do let y ← x; pure y : Except ε α) = x := by
  cases x <;> rfl

theorem getHeader_sign_other (C : CryptoPrimitives) (s : RequestSigner) (req : SRequest)
    (n : String) (h1 : n ≠ AUTH_HEADER) (h2 : n ≠ HASH_HEADER) (h3 : n ≠ DATE_HEADER)
    (h4 : n ≠ TOKEN_HEADER) :
    (RequestSigner.sign C s req).getHeader n = req.getHeader n := by
  rw [sign_eq, getHeader_insertHeader_ne _ _ _ _ h1]
  simp only [SRequest.getHeader, signingHeaders]
  rw [find?_headersInsert_ne _ _ _ _ h2, find?_headersInsert_ne _ _ _ _ h3]
  cases htok : s.credential.token with
  | none => rfl
  | some t =>
    rw [find?_headersInsert_ne _ _ _ _ h4]

theorem canonicalize_headers_signed_three (t d h : String) :
    (canonicalize_headers
      [("x-amz-security-token", t), ("x-amz-date", d), ("x-amz-content-sha256", h)]).1 =
      "x-amz-content-sha256;x-amz-date;x-amz-security-token" := by
  have e1 : ¬ (("x-amz-date" : String) = "x-amz-security-token") := by decide
  have e2 : strLt "x-amz-date" "x-amz-security-token" = true := by decide
  have e3 : ¬ (("x-amz-content-sha256" : String) = "x-amz-date") := by decide
  have e4 : strLt "x-amz-content-sha256" "x-amz-date" = true := by decide
  have r1 : ¬ (("x-amz-security-token" : String) ∈ reservedHeaders) := by decide
  have r2 : ¬ (("x-amz-date" : String) ∈ reservedHeaders) := by decide
  have r3 : ¬ (("x-amz-content-sha256" : String) ∈ reservedHeaders) := by decide
  simp only [canonicalize_headers, groupHeaders, groupHeadersFrom, List.foldl_cons,
    List.foldl_nil, if_neg r1, if_neg r2, if_neg r3, btInsert, if_neg e1, if_pos e2,
    if_neg e3, if_pos e4, List.map_cons, List.map_nil, sepJoin, sepJoinAux]
  rfl

theorem canonicalize_headers_signed_two (d h : String) :
    (canonicalize_headers [("x-amz-date", d), ("x-amz-content-sha256", h)]).1 =
      "x-amz-content-sha256;x-amz-date" := by
  have e3 : ¬ (("x-amz-content-sha256" : String) = "x-amz-date") := by decide
  have e4 : strLt "x-amz-content-sha256" "x-amz-date" = true := by decide
  have r2 : ¬ (("x-amz-date" : String) ∈ reservedHeaders) := by decide
  have r3 : ¬ (("x-amz-content-sha256" : String) ∈ reservedHeaders) := by decide
  simp only [canonicalize_headers, groupHeaders, groupHeadersFrom, List.foldl_cons,
    List.foldl_nil, if_neg r2, if_neg r3, btInsert, if_neg e3, if_pos e4,
    List.map_cons, List.map_nil, sepJoin, sepJoinAux]
  rfl

theorem signed_headers_of_empty_request (s : RequestSigner) (m : String) (u : SUri) :
    (canonicalize_headers (signingHeaders s ⟨m, u, []⟩)).1 =
      match s.credential.token with
      | some _ => "x-amz-content-sha256;x-amz-date;x-amz-security-token"
      | none => "x-amz-content-sha256;x-amz-date" := by
  cases htok : s.credential.token with
  | none =>
    simp only [signingHeaders, htok, headersInsert, List.filter_nil, List.nil_append,
      List.filter_cons, List.filter_nil]
    simp only [DATE_HEADER, HASH_HEADER]
    simp
    exact canonicalize_headers_signed_two _ _
  | some t =>
    simp only [signingHeaders, htok, headersInsert, List.filter_nil, List.nil_append,
      List.filter_cons, List.filter_nil]
    simp only [DATE_HEADER, HASH_HEADER, TOKEN_HEADER]
    simp
    exact canonicalize_headers_signed_three _ _ _

/-- C10: on the successful credential path, `get` hands the transport a
request whose authorization header's SignedHeaders list is exactly
`x-amz-content-sha256;x-amz-date`, plus `x-amz-security-token` when the
credential carries a session token; the `Range` header (inserted only
after signing) is present on the dispatched request exactly when a range
was requested, and no `host` header is ever set, so neither is covered
by the signature. -/
theorem c10_signed_header_set (C : CryptoPrimitives) (region endpoint : String)
    (cred : AwsCredential) (transport : SRequest → Except S3ClientError (List Nat))
    (now : DateTimeUtc) (bucket key : String) (range : Option (Nat × Nat)) :
    ∃ req : SRequest,
      S3Client.get C ⟨region, endpoint, Except.ok cred⟩ transport now bucket key range =
        transport req ∧
      req.getHeader "range" = Option.map format_http_range range ∧
      req.getHeader "host" = none ∧
      (∃ sig,
        req.getHeader AUTH_HEADER =
          some ("AWS4-HMAC-SHA256 Credential=" ++ cred.key_id ++ "/" ++
            scopeOf ⟨now, cred, "s3", region⟩ ++ ", SignedHeaders=" ++
            (match cred.token with
              | some _ => "x-amz-content-sha256;x-amz-date;x-amz-security-token"
              | none => "x-amz-content-sha256;x-amz-date") ++
            ", Signature=" ++ sig)) := by
  cases range with
  | none =>
    refine ⟨_, exceptBindPure _, ?_, ?_, ?_⟩
    · rw [getHeader_sign_other _ _ _ _ (by decide) (by decide) (by decide) (by decide)]
      rfl
    · rw [getHeader_sign_other _ _ _ _ (by decide) (by decide) (by decide) (by decide)]
      rfl
    · refine ⟨AwsCredential.sign C cred
        (stringToSignOf C ⟨now, cred, "s3", region⟩
          ⟨"GET", ⟨some "https", some endpoint,
            (pathAndQuerySplit (bucket ++ "/" ++ encode_path key)).1,
            (pathAndQuerySplit (bucket ++ "/" ++ encode_path key)).2⟩, []⟩)
        now region "s3", ?_⟩
      rw [sign_getHeader_auth_aux]
      have hsh := signed_headers_of_empty_request ⟨now, cred, "s3", region⟩ "GET"
        ⟨some "https", some endpoint,
          (pathAndQuerySplit (bucket ++ "/" ++ encode_path key)).1,
          (pathAndQuerySplit (bucket ++ "/" ++ encode_path key)).2⟩
      simp only [authValueOf, hsh]
  | some r =>
    refine ⟨_, exceptBindPure _, ?_, ?_, ?_⟩
    · rw [getHeader_insertHeader_self]
      rfl
    · rw [getHeader_insertHeader_ne _ _ _ _ (by decide),
        getHeader_sign_other _ _ _ _ (by decide) (by decide) (by decide) (by decide)]
      rfl
    · refine ⟨AwsCredential.sign C cred
        (stringToSignOf C ⟨now, cred, "s3", region⟩
          ⟨"GET", ⟨some "https", some endpoint,
            (pathAndQuerySplit (bucket ++ "/" ++ encode_path key)).1,
            (pathAndQuerySplit (bucket ++ "/" ++ encode_path key)).2⟩, []⟩)
        now region "s3", ?_⟩
      rw [getHeader_insertHeader_ne _ _ _ _ (by decide), sign_getHeader_auth_aux]
      have hsh := signed_headers_of_empty_request ⟨now, cred, "s3", region⟩ "GET"
        ⟨some "https", some endpoint,
          (pathAndQuerySplit (bucket ++ "/" ++ encode_path key)).1,
          (pathAndQuerySplit (bucket ++ "/" ++ encode_path key)).2⟩
      simp only [authValueOf, hsh]

/-! ## Claim C5: header canonicalization -/

/-- Construction of a `hyper::HeaderMap` from raw (possibly mixed-case)
names: `HeaderName` parsing lower-cases ASCII names. -/
def mkHeaderMap (raw : List (String × String)) : List (String × String) :=
  raw.map fun p => (lowerAscii p.1, p.2)

/-- C5: for every raw header list, `canonicalize_headers` of the header
map (names lower-cased by construction) produces (1) the signed-header
list as the `;`-join of the grouped names, (2) the canonical block as
one `name:value1,value2\n` line per name in order — values trimmed and
comma-joined in original order, every line (including the last) ending
in `\n` —, (3) names sorted strictly ascending, and (4) a name appears
exactly when it is not one of the three reserved names `authorization`,
`content-length`, `user-agent` (matched on the lower-cased form, hence
case-insensitively) and occurs in the input. -/
theorem c5_header_canonicalization (raw : List (String × String)) :
    (canonicalize_headers (mkHeaderMap raw)).1 =
      String.join (((groupHeaders (mkHeaderMap raw)).map Prod.fst).intersperse ";") ∧
    (canonicalize_headers (mkHeaderMap raw)).2 =
      String.join (((groupHeaders (mkHeaderMap raw)).map Prod.fst).map fun k =>
        k ++ ":" ++
        String.join (((specValues (mkHeaderMap raw) k).map rustTrim).intersperse ",") ++
        "\n") ∧
    List.Sorted strLtP ((groupHeaders (mkHeaderMap raw)).map Prod.fst) ∧
    (∀ k, k ∈ (groupHeaders (mkHeaderMap raw)).map Prod.fst ↔
      (k ∉ reservedHeaders ∧ k ∈ (mkHeaderMap raw).map Prod.fst)) := by
  have hsorted := sorted_keys_groupHeaders (mkHeaderMap raw)
  have hnd : ((groupHeaders (mkHeaderMap raw)).map Prod.fst).Nodup := hsorted.nodup
  refine ⟨?_, ?_, hsorted, fun k => mem_keys_groupHeaders (mkHeaderMap raw) k⟩
  · rw [canonicalize_headers]
    exact sepJoin_eq_join_intersperse ";" _
  · rw [canonicalize_headers]
    rw [map_entries_eq_map_keys _ hnd headerLine]
    show String.join _ = String.join _
    refine congrArg String.join ?_
    apply List.map_congr_left
    intro k hk
    rw [headerLine, findVals_groupHeaders, sepJoin_eq_join_intersperse]

/-! ## Claim C8: validity lemmas for the generated header values -/

theorem strBytes_append (a b : String) : strBytes (a ++ b) = strBytes a ++ strBytes b := by
  simp [strBytes, String.data_append]

theorem validHV_append {a b : String} (ha : isValidHeaderValueStr a = true)
    (hb : isValidHeaderValueStr b = true) : isValidHeaderValueStr (a ++ b) = true := by
  simp only [isValidHeaderValueStr, strBytes_append, List.all_append]
  simp only [isValidHeaderValueStr] at ha hb
  simp [ha, hb]

theorem validHV_join {l : List String} (h : ∀ x ∈ l, isValidHeaderValueStr x = true) :
    isValidHeaderValueStr (String.join l) = true := by
  induction l with
  | nil => decide
  | cons x rest ih =>
    rw [strJoin_cons]
    exact validHV_append (h x (by simp)) (ih fun y hy => h y (by simp [hy]))

theorem validHV_mk {cs : List Char} (h : ∀ c ∈ cs, 32 ≤ c.toNat ∧ c.toNat < 127) :
    isValidHeaderValueStr (String.mk cs) = true := by
  simp only [isValidHeaderValueStr, strBytes, List.all_eq_true]
  intro b hb
  rw [List.mem_flatMap] at hb
  obtain ⟨c, hc, hbc⟩ := hb
  obtain ⟨h32, h127⟩ := h c hc
  have hlt : c.toNat < 0x80 := by omega
  rw [charUtf8] at hbc
  simp only [if_pos hlt] at hbc
  rw [List.mem_singleton] at hbc
  subst hbc
  simp only [isValidHeaderValueByte]
  have : ¬ (c.toNat == 127) = true := by
    simp only [beq_iff_eq]
    omega
  simp [h32, this]

theorem natDigitsAux_lt : ∀ fuel n d, d ∈ natDigitsAux fuel n → d < 10 := by
  intro fuel
  induction fuel with
  | zero => intro n d hd; simp [natDigitsAux] at hd
  | succ fuel ih =>
    intro n d hd
    rw [natDigitsAux] at hd
    by_cases hn : n < 10
    · rw [if_pos hn, List.mem_singleton] at hd
      omega
    · rw [if_neg hn, List.mem_append] at hd
      rcases hd with hd | hd
      · exact ih _ _ hd
      · rw [List.mem_singleton] at hd
        subst hd
        omega

theorem validHV_natToStr (n : Nat) : isValidHeaderValueStr (natToStr n) = true := by
  apply validHV_mk
  intro c hc
  rw [List.mem_map] at hc
  obtain ⟨d, hd, hcd⟩ := hc
  have hlt : d < 10 := natDigitsAux_lt _ _ _ hd
  subst hcd
  interval_cases d <;> decide

theorem validHV_padNat (w n : Nat) : isValidHeaderValueStr (padNat w n) = true := by
  apply validHV_append
  · apply validHV_mk
    intro c hc
    rw [List.eq_of_mem_replicate hc]
    decide
  · exact validHV_natToStr n

theorem validHV_fmtYYYYMMDD (d : DateTimeUtc) :
    isValidHeaderValueStr (fmtYYYYMMDD d) = true :=
  validHV_append (validHV_append (validHV_padNat 4 d.year) (validHV_padNat 2 d.month))
    (validHV_padNat 2 d.day)

theorem validHV_fmtISO8601Basic (d : DateTimeUtc) :
    isValidHeaderValueStr (fmtISO8601Basic d) = true := by
  refine validHV_append (validHV_append (validHV_append (validHV_append
    (validHV_append (validHV_fmtYYYYMMDD d) (by decide)) (validHV_padNat 2 d.hour))
    (validHV_padNat 2 d.minute)) (validHV_padNat 2 d.second)) (by decide)

theorem validHV_hex_encode (bs : List Nat) :
    isValidHeaderValueStr (hex_encode bs) = true := by
  apply validHV_join
  intro x hx
  rw [List.mem_map] at hx
  obtain ⟨b, hb, hxb⟩ := hx
  subst hxb
  apply validHV_mk
  intro c hc
  have h16a : b / 16 % 16 < 16 := Nat.mod_lt _ (by omega)
  have h16b : b % 16 < 16 := Nat.mod_lt _ (by omega)
  rcases List.mem_cons.mp hc with rfl | hc2
  · rw [hexDigitLower]
    generalize hm : b / 16 % 16 = m at h16a ⊢
    interval_cases m <;> decide
  · rcases List.mem_cons.mp hc2 with rfl | hc3
    · rw [hexDigitLower]
      generalize hm : b % 16 = m at h16b ⊢
      interval_cases m <;> decide
    · simp at hc3

theorem validHV_sepJoin {sep : String} {l : List String}
    (hsep : isValidHeaderValueStr sep = true)
    (h : ∀ x ∈ l, isValidHeaderValueStr x = true) :
    isValidHeaderValueStr (sepJoin sep l) = true := by
  cases l with
  | nil =>
    show isValidHeaderValueStr "" = true
    decide
  | cons x rest =>
    rw [sepJoin, sepJoinAux_eq]
    refine validHV_append (h x (by simp)) (validHV_join ?_)
    intro y hy
    rw [List.mem_map] at hy
    obtain ⟨z, hz, hyz⟩ := hy
    subst hyz
    exact validHV_append hsep (h z (by simp [hz]))

theorem validHV_signed_headers (hm : List (String × String))
    (h : ∀ p ∈ hm, isValidHeaderValueStr p.1 = true) :
    isValidHeaderValueStr (canonicalize_headers hm).1 = true := by
  rw [canonicalize_headers]
  apply validHV_sepJoin (by decide)
  intro x hx
  rcases (mem_keys_groupHeaders hm x).mp hx with ⟨_, hxin⟩
  rw [List.mem_map] at hxin
  obtain ⟨p, hp, hpx⟩ := hxin
  exact hpx ▸ h p hp

theorem mem_headersInsert {hs : List (String × String)} {n v : String}
    {p : String × String} (h : p ∈ headersInsert hs n v) : p ∈ hs ∨ p = (n, v) := by
  rw [headersInsert, List.mem_append] at h
  rcases h with h | h
  · exact Or.inl (List.mem_of_mem_filter h)
  · exact Or.inr (List.mem_singleton.mp h)


theorem validHV_scopeOf (s : RequestSigner)
    (hregion : isValidHeaderValueStr s.region = true)
    (hservice : isValidHeaderValueStr s.service = true) :
    isValidHeaderValueStr (scopeOf s) = true := by
  rw [scopeOf]
  exact validHV_append (validHV_append (validHV_append (validHV_append (validHV_append
    (validHV_fmtYYYYMMDD s.date) (by decide)) hregion) (by decide)) hservice) (by decide)

theorem from_str_of_valid {v : String} (h : isValidHeaderValueStr v = true) :
    HeaderValue.from_str v = some v := by
  rw [HeaderValue.from_str, if_pos h]

/-! ## UTF-8 round-trip: string-encoded header values always decode -/

theorem charUtf8_decode (c : Char) (bs : List Nat) :
    utf8DecodeChars? (charUtf8 c ++ bs) =
      (utf8DecodeChars? bs).map fun cs => c :: cs := by
  have hvalid : c.toNat < 0xD800 ∨ (0xE000 ≤ c.toNat ∧ c.toNat < 0x110000) := by
    have hv := c.valid
    simp only [UInt32.isValidChar, Nat.isValidChar] at hv
    exact hv
  by_cases h1 : c.toNat < 0x80
  · have hc : charUtf8 c = [c.toNat] := by
      simp only [charUtf8]
      rw [if_pos h1]
    have hch : Char.ofNat c.toNat = c := Char.ofNat_toNat c
    rw [hc, List.cons_append, List.nil_append]
    simp [utf8DecodeChars?, utf8DecodeLoop, h1, hch]
  · by_cases h2 : c.toNat < 0x800
    · have hc : charUtf8 c = [0xC0 + c.toNat / 64, 0x80 + c.toNat % 64] := by
        simp only [charUtf8]
        rw [if_neg h1, if_pos h2]
      have hA : ¬ (0xC0 + c.toNat / 64 < 0x80) := by omega
      have hB : 0xC2 ≤ 0xC0 + c.toNat / 64 ∧ 0xC0 + c.toNat / 64 ≤ 0xDF := by omega
      have hcont : 0x80 ≤ 0x80 + c.toNat % 64 ∧ 0x80 + c.toNat % 64 ≤ 0xBF := by omega
      rw [hc, List.cons_append, List.cons_append, List.nil_append]
      simp [utf8DecodeChars?, utf8DecodeLoop, hA, hB, hcont]
      congr 1
      funext cs
      congr 1
      conv_rhs => rw [← Char.ofNat_toNat c]
      congr 1
      omega
    · by_cases h3 : c.toNat < 0x10000
      · -- three-byte sequence
        have hc : charUtf8 c = [0xE0 + c.toNat / 4096, 0x80 + c.toNat / 64 % 64,
            0x80 + c.toNat % 64] := by
          simp only [charUtf8]
          rw [if_neg h1, if_neg h2, if_pos h3]
        have hA : ¬ (0xE0 + c.toNat / 4096 < 0x80) := by omega
        have hB : ¬ (0xC2 ≤ 0xE0 + c.toNat / 4096 ∧ 0xE0 + c.toNat / 4096 ≤ 0xDF) := by omega
        have hcont3 : 0x80 ≤ 0x80 + c.toNat % 64 ∧ 0x80 + c.toNat % 64 ≤ 0xBF := by omega
        rw [hc, List.cons_append, List.cons_append, List.cons_append, List.nil_append]
        by_cases hs1 : c.toNat < 0x1000
        · have hE : 0xE0 + c.toNat / 4096 = 0xE0 := by omega
          have hb2 : 0xA0 ≤ 0x80 + c.toNat / 64 % 64 ∧ 0x80 + c.toNat / 64 % 64 ≤ 0xBF := by
            omega
          simp [utf8DecodeChars?, utf8DecodeLoop, hA, hB, hE, hb2, hcont3]
          congr 1
          funext cs
          congr 1
          conv_rhs => rw [← Char.ofNat_toNat c]
          congr 1
          omega
        · by_cases hs2 : 0xD000 ≤ c.toNat ∧ c.toNat < 0xE000
          · have hE : ¬ (0xE0 + c.toNat / 4096 = 0xE0) := by omega
            have hED : 0xE0 + c.toNat / 4096 = 0xED := by omega
            have hb2 : 0x80 ≤ 0x80 + c.toNat / 64 % 64 ∧ 0x80 + c.toNat / 64 % 64 ≤ 0x9F := by
              omega
            simp [utf8DecodeChars?, utf8DecodeLoop, hA, hB, hE, hED, hb2, hcont3]
            congr 1
            funext cs
            congr 1
            conv_rhs => rw [← Char.ofNat_toNat c]
            congr 1
            omega
          · have hE : ¬ (0xE0 + c.toNat / 4096 = 0xE0) := by omega
            have hED : ¬ (0xE0 + c.toNat / 4096 = 0xED) := by omega
            have hE1 : 0xE1 ≤ 0xE0 + c.toNat / 4096 ∧ 0xE0 + c.toNat / 4096 ≤ 0xEF := by omega
            have hb2 : 0x80 ≤ 0x80 + c.toNat / 64 % 64 ∧ 0x80 + c.toNat / 64 % 64 ≤ 0xBF := by
              omega
            simp [utf8DecodeChars?, utf8DecodeLoop, hA, hB, hE, hED, hE1, hb2, hcont3]
            congr 1
            funext cs
            congr 1
            conv_rhs => rw [← Char.ofNat_toNat c]
            congr 1
            omega
      · -- four-byte sequence
        have hmax : c.toNat < 0x110000 := by omega
        have hc : charUtf8 c = [0xF0 + c.toNat / 0x40000, 0x80 + c.toNat / 4096 % 64,
            0x80 + c.toNat / 64 % 64, 0x80 + c.toNat % 64] := by
          simp only [charUtf8]
          rw [if_neg h1, if_neg h2, if_neg h3]
        have hA : ¬ (0xF0 + c.toNat / 0x40000 < 0x80) := by omega
        have hB : ¬ (0xC2 ≤ 0xF0 + c.toNat / 0x40000 ∧ 0xF0 + c.toNat / 0x40000 ≤ 0xDF) := by
          omega
        have hE0 : ¬ (0xF0 + c.toNat / 0x40000 = 0xE0) := by omega
        have hED : ¬ (0xF0 + c.toNat / 0x40000 = 0xED) := by omega
        have hE1 : ¬ (0xE1 ≤ 0xF0 + c.toNat / 0x40000 ∧ 0xF0 + c.toNat / 0x40000 ≤ 0xEF) := by
          omega
        have hcont3 : 0x80 ≤ 0x80 + c.toNat / 64 % 64 ∧ 0x80 + c.toNat / 64 % 64 ≤ 0xBF := by
          omega
        have hcont4 : 0x80 ≤ 0x80 + c.toNat % 64 ∧ 0x80 + c.toNat % 64 ≤ 0xBF := by omega
        rw [hc, List.cons_append, List.cons_append, List.cons_append, List.cons_append,
          List.nil_append]
        by_cases hs1 : c.toNat < 0x40000
        · have hF0 : 0xF0 + c.toNat / 0x40000 = 0xF0 := by omega
          have hb2 : 0x90 ≤ 0x80 + c.toNat / 4096 % 64 ∧ 0x80 + c.toNat / 4096 % 64 ≤ 0xBF := by
            omega
          simp [utf8DecodeChars?, utf8DecodeLoop, hA, hB, hE0, hED, hE1, hF0, hb2, hcont3, hcont4]
          congr 1
          funext cs
          congr 1
          conv_rhs => rw [← Char.ofNat_toNat c]
          congr 1
          omega
        · by_cases hs2 : 0x100000 ≤ c.toNat
          · have hF0 : ¬ (0xF0 + c.toNat / 0x40000 = 0xF0) := by omega
            have hF4 : 0xF0 + c.toNat / 0x40000 = 0xF4 := by omega
            have hb2 : 0x80 ≤ 0x80 + c.toNat / 4096 % 64 ∧
                0x80 + c.toNat / 4096 % 64 ≤ 0x8F := by omega
            simp [utf8DecodeChars?, utf8DecodeLoop, hA, hB, hE0, hED, hE1, hF0, hF4, hb2, hcont3, hcont4]
            congr 1
            funext cs
            congr 1
            conv_rhs => rw [← Char.ofNat_toNat c]
            congr 1
            omega
          · have hF0 : ¬ (0xF0 + c.toNat / 0x40000 = 0xF0) := by omega
            have hF4 : ¬ (0xF0 + c.toNat / 0x40000 = 0xF4) := by omega
            have hF1 : 0xF1 ≤ 0xF0 + c.toNat / 0x40000 ∧ 0xF0 + c.toNat / 0x40000 ≤ 0xF3 := by
              omega
            have hb2 : 0x80 ≤ 0x80 + c.toNat / 4096 % 64 ∧
                0x80 + c.toNat / 4096 % 64 ≤ 0xBF := by omega
            simp [utf8DecodeChars?, utf8DecodeLoop, hA, hB, hE0, hED, hE1, hF0, hF4, hF1, hb2, hcont3, hcont4]
            congr 1
            funext cs
            congr 1
            conv_rhs => rw [← Char.ofNat_toNat c]
            congr 1
            omega

theorem utf8DecodeChars?_flatMap (cs : List Char) :
    utf8DecodeChars? (cs.flatMap charUtf8) = some cs := by
  induction cs with
  | nil => rfl
  | cons c rest ih =>
    rw [List.flatMap_cons, charUtf8_decode, ih]
    rfl

theorem utf8Decode?_strBytes (v : String) : utf8Decode? (strBytes v) = some v := by
  rw [utf8Decode?, strBytes, utf8DecodeChars?_flatMap]
  rfl

theorem ofString_uri (r : SRequest) : (SRequestB.ofString r).uri = r.uri := rfl

theorem ofString_method (r : SRequest) : (SRequestB.ofString r).method = r.method := rfl

theorem ofString_headers (r : SRequest) :
    (SRequestB.ofString r).headers = r.headers.map fun p => (p.1, strBytes p.2) := rfl

theorem ofString_insertHeader (r : SRequest) (n v : String) :
    (SRequestB.ofString r).insertHeader n (strBytes v) =
      SRequestB.ofString (r.insertHeader n v) := by
  simp only [SRequestB.ofString, SRequestB.insertHeader, SRequest.insertHeader, headersInsert,
    List.filter_map, List.map_append, List.map_cons, List.map_nil]
  rfl

theorem groupHeadersE_ofString_aux (hm : List (String × String))
    (acc : List (String × List String)) :
    (hm.map fun p => (p.1, strBytes p.2)).foldl
      (fun acc kv =>
        acc.bind fun m =>
          if kv.1 ∈ reservedHeaders then some m
          else (utf8Decode? kv.2).map fun v => btInsert m kv.1 v)
      (some acc) = some (groupHeadersFrom acc hm) := by
  induction hm generalizing acc with
  | nil => rfl
  | cons kv t ih =>
    obtain ⟨k, v⟩ := kv
    simp only [List.map_cons, List.foldl_cons, Option.some_bind, groupHeadersFrom,
      utf8Decode?_strBytes, Option.map_some]
    by_cases hres : k ∈ reservedHeaders
    · rw [if_pos hres]
      simpa [groupHeadersFrom, if_pos hres] using ih acc
    · rw [if_neg hres]
      simpa [groupHeadersFrom, if_neg hres] using ih (btInsert acc k v)

theorem canonicalize_headersE_ofString (hm : List (String × String)) :
    canonicalize_headersE (hm.map fun p => (p.1, strBytes p.2)) =
      some (canonicalize_headers hm) := by
  rw [canonicalize_headersE, groupHeadersE]
  rw [groupHeadersE_ofString_aux hm []]
  rfl

/-- C8 (amended): `signE` — the signer over byte-valued header maps with
every partial operation explicit, including the
`from_utf8(value.as_bytes()).unwrap()` inside `canonicalize_headers` —
succeeds, and agrees with the total signer, whenever the request URI is
absolute, every header value is the UTF-8 byte sequence of a string
(which is how this client constructs all values, via
`HeaderValue::from_str`; a valid-header-byte value that is not valid
UTF-8 is a failure mode the original claim overlooks), the session
token (if any) is a valid header value, all header names are valid
header bytes, and the credential's key id, the region and the service
are valid header bytes (they flow into the `authorization` value the
signer itself builds, the other overlooked failure mode). -/
theorem c8_sign_total_on_valid_inputs (C : CryptoPrimitives) (s : RequestSigner)
    (request : SRequest)
    (hscheme : request.uri.scheme.isSome = true)
    (htoken : s.credential.token.all isValidHeaderValueStr = true)
    (hnames : request.headers.all (fun p => isValidHeaderValueStr p.1) = true)
    (hkey : isValidHeaderValueStr s.credential.key_id = true)
    (hregion : isValidHeaderValueStr s.region = true)
    (hservice : isValidHeaderValueStr s.service = true) :
    RequestSigner.signE C s (SRequestB.ofString request) =
      some (SRequestB.ofString (RequestSigner.sign C s request)) := by
  have hurl : Url.parse request.uri = some request.uri := by
    rw [Url.parse, if_pos hscheme]
  have hdate : HeaderValue.from_str (fmtISO8601Basic s.date) = some (fmtISO8601Basic s.date) :=
    from_str_of_valid (validHV_fmtISO8601Basic s.date)
  have hdigest : HeaderValue.from_str EMPTY_SHA256_HASH = some EMPTY_SHA256_HASH :=
    from_str_of_valid (by decide)
  cases htok : s.credential.token with
  | none =>
    have hnames2 : ∀ p ∈ ((request.insertHeader DATE_HEADER
        (fmtISO8601Basic s.date)).insertHeader HASH_HEADER EMPTY_SHA256_HASH).headers,
        isValidHeaderValueStr p.1 = true := by
      intro p hp
      rcases mem_headersInsert hp with hp2 | rfl
      · rcases mem_headersInsert hp2 with hp3 | rfl
        · exact List.all_eq_true.mp hnames p hp3
        · show isValidHeaderValueStr DATE_HEADER = true
          decide
      · show isValidHeaderValueStr HASH_HEADER = true
        decide
    simp only [RequestSigner.signE, RequestSigner.sign, htok, ofString_uri, hurl, hdate,
      hdigest, ofString_insertHeader, ofString_method, ofString_headers,
      canonicalize_headersE_ofString, Option.pure_def, Option.bind_eq_bind, Option.some_bind]
    rw [from_str_of_valid ?hv]
    · simp only [Option.some_bind]
    case hv =>
      exact validHV_append (validHV_append (validHV_append (validHV_append (validHV_append
        (validHV_append (validHV_append (by decide) hkey) (by decide))
        (validHV_scopeOf s hregion hservice)) (by decide))
        (validHV_signed_headers _ hnames2)) (by decide)) (validHV_hex_encode _)
  | some t =>
    have htv : isValidHeaderValueStr t = true := by
      rw [htok] at htoken
      simpa [Option.all] using htoken
    have htfs : HeaderValue.from_str t = some t := from_str_of_valid htv
    have hnames3 : ∀ p ∈ (((request.insertHeader TOKEN_HEADER t).insertHeader DATE_HEADER
        (fmtISO8601Basic s.date)).insertHeader HASH_HEADER EMPTY_SHA256_HASH).headers,
        isValidHeaderValueStr p.1 = true := by
      intro p hp
      rcases mem_headersInsert hp with hp2 | rfl
      · rcases mem_headersInsert hp2 with hp3 | rfl
        · rcases mem_headersInsert hp3 with hp4 | rfl
          · exact List.all_eq_true.mp hnames p hp4
          · show isValidHeaderValueStr TOKEN_HEADER = true
            decide
        · show isValidHeaderValueStr DATE_HEADER = true
          decide
      · show isValidHeaderValueStr HASH_HEADER = true
        decide
    simp only [RequestSigner.signE, RequestSigner.sign, htok, ofString_uri, hurl, hdate,
      hdigest, htfs, ofString_insertHeader, ofString_method, ofString_headers,
      canonicalize_headersE_ofString, Option.pure_def, Option.bind_eq_bind, Option.some_bind]
    rw [from_str_of_valid ?hv]
    · simp only [Option.some_bind]
    case hv =>
      exact validHV_append (validHV_append (validHV_append (validHV_append (validHV_append
        (validHV_append (validHV_append (by decide) hkey) (by decide))
        (validHV_scopeOf s hregion hservice)) (by decide))
        (validHV_signed_headers _ hnames3)) (by decide)) (validHV_hex_encode _)

/-- C8 counterexample, exhibiting both failure branches reachable under
the claim's preconditions (absolute https URI; every header value made
of valid header bytes; session token absent, hence trivially valid):
(1) with no headers at all, a credential whose key id contains a line
feed makes the final `HeaderValue::from_str(authorisation).unwrap`
fail, because the key id flows into the `authorization` value; and
(2) with an ordinary credential, a custom header whose value is the
single byte `0x80` — a valid `HeaderValue` byte, but not valid UTF-8 —
makes the `from_utf8(value.as_bytes()).unwrap` inside
`canonicalize_headers` fail.  In both cases the signer hits a failure
branch, refuting "the failure branches are unreachable". -/
theorem c8_counterexample :
    RequestSigner.signE ⟨fun _ _ => [], fun _ => []⟩
      ⟨⟨2015, 8, 30, 12, 36, 0⟩, ⟨"a\nb", "secret", none⟩, "s3", "us-east-1"⟩
      ⟨"GET", ⟨some "https", some "example.com", "/bucket/key", none⟩, []⟩ = none ∧
    RequestSigner.signE ⟨fun _ _ => [], fun _ => []⟩
      ⟨⟨2015, 8, 30, 12, 36, 0⟩, ⟨"AKIDEXAMPLE", "secret", none⟩, "s3", "us-east-1"⟩
      ⟨"GET", ⟨some "https", some "example.com", "/bucket/key", none⟩,
        [("x-custom-meta", [0x80])]⟩ = none ∧
    ([0x80] : List Nat).all isValidHeaderValueByte = true ∧
    isValidHeaderValueStr "x-custom-meta" = true ∧
    (⟨some "https", some "example.com", "/bucket/key", none⟩ : SUri).scheme.isSome = true ∧
    (Option.all isValidHeaderValueStr (none : Option String)) = true := by
  refine ⟨by rfl, by rfl, by decide, by decide, by decide, by decide⟩

/-- Witness for `c8_sign_total_on_valid_inputs` at a concrete valid
input. -/
theorem c8_sign_total_witness :
    RequestSigner.signE ⟨fun _ _ => [], fun _ => []⟩
      ⟨⟨2015, 8, 30, 12, 36, 0⟩, ⟨"AKIDEXAMPLE", "secret", none⟩, "s3", "us-east-1"⟩
      (SRequestB.ofString
        ⟨"GET", ⟨some "https", some "example.com", "/bucket/key", none⟩, []⟩) =
      some (SRequestB.ofString (RequestSigner.sign ⟨fun _ _ => [], fun _ => []⟩
        ⟨⟨2015, 8, 30, 12, 36, 0⟩, ⟨"AKIDEXAMPLE", "secret", none⟩, "s3", "us-east-1"⟩
        ⟨"GET", ⟨some "https", some "example.com", "/bucket/key", none⟩, []⟩)) :=
  c8_sign_total_on_valid_inputs _ _ _ (by decide) (by decide) (by decide) (by decide)
    (by decide) (by decide)
